import Mathlib

/-!
Verification of the motion-displacement analysis in the fMRI preprocessing
notebook (`003-fMRI_preprocessing.ipynb`).

The notebook's own logic consists of:
  * an RMS-error quality metric per 4-D volume (a loop version and a
    vectorized broadcast version),
  * truncation of per-subject time series to the minimum common frame count,
  * selection of the worst subject by time-averaged RMS,
  * the mean-displacement summary of per-frame affine motion transforms
    (Jenkinson's spherical-head formula),
  * a cross-subject aggregation flagging subjects whose displacement
    first-difference has large root-sum-square.

Matrices are embedded over ℚ (the notebook computes exact formulas in
floating point; ℚ is the exact idealization), with `Real.sqrt` applied at
the outermost square root.
-/

open Matrix

/-- Four-by-four affine transform, as in the notebook's `np.matrix` usage. -/
abbrev Affine4 := Matrix (Fin 4) (Fin 4) ℚ

/-- Inclusion of row/column indices of the upper-left 3×3 block into `Fin 4`,
used to model the slices `T_error[0:3,0:3]` and `T_error[0:3,3]`. -/
def lift3 (i : Fin 3) : Fin 4 := ⟨i.val, Nat.lt_succ_of_lt i.isLt⟩

@[simp] theorem lift3_zero : lift3 0 = 0 := rfl

@[simp] theorem lift3_one : lift3 1 = 1 := rfl

@[simp] theorem lift3_two : lift3 2 = 2 := rfl

/-- Source: `T_error = ref_affine - ref_affine * t.as_affine()`. -/
def T_error (ref T : Affine4) : Affine4 := ref - ref * T

/-- Source: `A = T_error[0:3,0:3]` (upper 3×3 block of the error transform). -/
def A_part (ref T : Affine4) (i j : Fin 3) : ℚ := T_error ref T (lift3 i) (lift3 j)

/-- Source: `t = T_error[0:3,3]` (translation column of the error transform). -/
def t_part (ref T : Affine4) (i : Fin 3) : ℚ := T_error ref T (lift3 i) 3

/-- Source: `np.trace(A.T * A)`, written out as the sum of squares of the
entries of `A`, which is what the matrix product followed by the trace
computes numerically. -/
def traceATA (ref T : Affine4) : ℚ := ∑ i : Fin 3, ∑ j : Fin 3, A_part ref T j i * A_part ref T j i

/-- Source: `t + A*xc`, the displacement of the assumed center. -/
def centerDisp (ref T : Affine4) (xc : Fin 3 → ℚ) (i : Fin 3) : ℚ :=
  t_part ref T i + ∑ j : Fin 3, A_part ref T i j * xc j

/-- The quantity under the square root in the notebook's
`mean_displacement[index] = np.sqrt(R**2./5 * np.trace(A.T * A) + (t + A*xc).T * (t + A*xc))`. -/
def dispSq (ref T : Affine4) (r : ℚ) (xc : Fin 3 → ℚ) : ℚ :=
  r ^ 2 / 5 * traceATA ref T + ∑ i : Fin 3, centerDisp ref T xc i * centerDisp ref T xc i

/-- The per-frame mean displacement computed by the notebook loop.  The
notebook fixes `R = 70.` and `xc = np.matrix((0,0,0)).T`; here radius and
center are parameters so the defaults can be stated explicitly. -/
noncomputable def mean_displacement (ref T : Affine4) (r : ℚ) (xc : Fin 3 → ℚ) : ℝ :=
  Real.sqrt (dispSq ref T r xc)

/-- The default center `(0,0,0)` used by the notebook. -/
def xc0 : Fin 3 → ℚ := fun _ => 0

/-- The 3×3 linear block of the spec's error transform `E = R_ref − R_ref·T`,
as a `Matrix` for the spec-side formula. -/
def specA (ref T : Affine4) : Matrix (Fin 3) (Fin 3) ℚ :=
  of fun i j => (ref - ref * T) (lift3 i) (lift3 j)

/-- The translation column of the spec's error transform. -/
def spect (ref T : Affine4) : Fin 3 → ℚ := fun i => (ref - ref * T) (lift3 i) 3

/-- The quantity under the square root of the spec's closed form
`(r²/5)·trace(Aᵗ·A) + (t + A·xc)ᵗ·(t + A·xc)`, written with the
matrix-algebra operations named by the specification: matrix trace,
matrix transpose and product, matrix-vector product and dot product. -/
def specDispSq (ref T : Affine4) (r : ℚ) (xc : Fin 3 → ℚ) : ℚ :=
  r ^ 2 / 5 * Matrix.trace ((specA ref T)ᵀ * specA ref T) +
    (spect ref T + (specA ref T).mulVec xc) ⬝ᵥ (spect ref T + (specA ref T).mulVec xc)

/-- The spec's closed-form displacement. -/
noncomputable def spec_displacement (ref T : Affine4) (r : ℚ) (xc : Fin 3 → ℚ) : ℝ :=
  Real.sqrt (specDispSq ref T r xc)

theorem dispSq_eq_specDispSq (ref T : Affine4) (r : ℚ) (xc : Fin 3 → ℚ) :
    dispSq ref T r xc = specDispSq ref T r xc := by
  unfold dispSq specDispSq traceATA centerDisp A_part t_part T_error specA spect
  rw [Matrix.trace]
  simp only [Matrix.diag_apply, Matrix.mul_apply, Matrix.transpose_apply, Matrix.of_apply,
    Matrix.dotProduct, Pi.add_apply, Matrix.mulVec]

/-- C1: for every frame transform, the loop body computes the error transform
`E = R_ref − R_ref·T_i`, splits it into the 3×3 block `A` and translation `t`,
and returns exactly `sqrt((r²/5)·trace(AᵗA) + (t+A·xc)ᵗ(t+A·xc))`; with the
notebook defaults `r = 70`, `xc = (0,0,0)` this is the returned value. -/
theorem mean_displacement_eq_spec_formula :
    (∀ ref T : Affine4, ∀ r : ℚ, ∀ xc : Fin 3 → ℚ,
      mean_displacement ref T r xc = spec_displacement ref T r xc) ∧
    (∀ ref T : Affine4, mean_displacement ref T 70 xc0 = spec_displacement ref T 70 xc0) := by
  refine ⟨fun ref T r xc => ?_, fun ref T => ?_⟩ <;>
    simp [mean_displacement, spec_displacement, dispSq_eq_specDispSq]

/-- If the composed affine `R_ref · T` equals the reference, the error
transform vanishes and so does the quantity under the square root. -/
theorem dispSq_eq_zero_of_fixed (ref T : Affine4) (r : ℚ) (xc : Fin 3 → ℚ)
    (h : ref * T = ref) : dispSq ref T r xc = 0 := by
  unfold dispSq traceATA centerDisp A_part t_part T_error
  simp [h]

/-- C2: if the per-frame transform is the identity affine, the summarizer
returns exactly zero, for every invertible reference affine, radius and
center. -/
theorem mean_displacement_identity_transform_eq_zero (ref : Affine4) (r : ℚ)
    (xc : Fin 3 → ℚ) (_h : ∃ S : Affine4, ref * S = 1 ∧ S * ref = 1) :
    mean_displacement ref 1 r xc = 0 := by
  unfold mean_displacement
  rw [dispSq_eq_zero_of_fixed ref 1 r xc (mul_one ref)]
  simp

/-- Witness for C2 at the concrete invertible reference `1`, radius 70 and
center `(0,0,0)`. -/
theorem mean_displacement_identity_transform_eq_zero_witness :
    (∃ S : Affine4, 1 * S = 1 ∧ S * 1 = 1) ∧ mean_displacement 1 1 70 xc0 = 0 :=
  ⟨⟨1, by simp, by simp⟩,
    mean_displacement_identity_transform_eq_zero 1 70 xc0 ⟨1, by simp, by simp⟩⟩

/-- A concrete invertible reference affine (uniform scale by 2). -/
def refC : Affine4 := !![2,0,0,0; 0,2,0,0; 0,0,2,0; 0,0,0,2]

/-- The inverse of `refC`. -/
def refCinv : Affine4 := !![1/2,0,0,0; 0,1/2,0,0; 0,0,1/2,0; 0,0,0,1/2]

/-- C3 counterexample: taking the per-frame transform to be the reference
affine itself (here the invertible affine `refC`) does not give zero
displacement: the error transform is `refC − refC²  ≠ 0`. -/
theorem mean_displacement_ref_as_transform_ne_zero :
    (∃ S : Affine4, refC * S = 1 ∧ S * refC = 1) ∧
      mean_displacement refC refC 70 xc0 ≠ 0 := by
  refine ⟨⟨refCinv, ?_, ?_⟩, ?_⟩
  · ext i j
    fin_cases i <;> fin_cases j <;>
      simp [refC, refCinv, Matrix.mul_apply, Fin.sum_univ_four, Matrix.one_apply,
        Matrix.vecHead, Matrix.vecTail]
  · ext i j
    fin_cases i <;> fin_cases j <;>
      simp [refC, refCinv, Matrix.mul_apply, Fin.sum_univ_four, Matrix.one_apply,
        Matrix.vecHead, Matrix.vecTail]
  unfold mean_displacement
  rw [show dispSq refC refC 70 xc0 = 11760 from by
    norm_num [dispSq, traceATA, centerDisp, A_part, t_part, T_error, refC, xc0, lift3,
      Fin.sum_univ_three, Matrix.mul_apply, Fin.sum_univ_four, Matrix.vecHead, Matrix.vecTail]]
  rw [ne_eq, Real.sqrt_eq_zero']
  push_cast
  norm_num

/-- C3 amended: the summarizer returns exactly 0 for the per-frame transform
whose composition with the reference equals the reference (`R_ref·T = R_ref`,
i.e. the identity per-frame transform when `R_ref` is invertible), for every
reference affine, radius and center. -/
theorem mean_displacement_composed_eq_ref_eq_zero (ref T : Affine4) (r : ℚ)
    (xc : Fin 3 → ℚ) (h : ref * T = ref) : mean_displacement ref T r xc = 0 := by
  unfold mean_displacement
  rw [dispSq_eq_zero_of_fixed ref T r xc h]
  simp

/-- Witness for the amended C3 at the concrete reference `refC` and the
identity per-frame transform. -/
theorem mean_displacement_composed_eq_ref_eq_zero_witness :
    refC * 1 = refC ∧ mean_displacement refC 1 70 xc0 = 0 :=
  ⟨mul_one refC, mean_displacement_composed_eq_ref_eq_zero refC 1 70 xc0 (mul_one refC)⟩

/-- A pure-translation per-frame transform: identity linear part, translation
column `d`. -/
def transAffine (d : Fin 3 → ℚ) : Affine4 :=
  !![1,0,0, d 0; 0,1,0, d 1; 0,0,1, d 2; 0,0,0,1]

/-- The upper-left 3×3 linear block of an affine. -/
def linPart (M : Affine4) (i j : Fin 3) : ℚ := M (lift3 i) (lift3 j)

/-- Euclidean norm of a 3-vector of rationals. -/
noncomputable def euclidNorm (v : Fin 3 → ℚ) : ℝ :=
  Real.sqrt ((∑ i : Fin 3, v i * v i : ℚ))

/-- For a pure-translation per-frame transform the linear block of the error
transform vanishes. -/
theorem A_part_transAffine (ref : Affine4) (d : Fin 3 → ℚ) (i j : Fin 3) :
    A_part ref (transAffine d) i j = 0 := by
  fin_cases i <;> fin_cases j <;>
    simp [A_part, T_error, transAffine, Matrix.mul_apply, Fin.sum_univ_four,
      Matrix.vecHead, Matrix.vecTail]

/-- For a pure-translation per-frame transform the translation column of the
error transform is minus the image of `d` under the reference's linear block. -/
theorem t_part_transAffine (ref : Affine4) (d : Fin 3 → ℚ) (i : Fin 3) :
    t_part ref (transAffine d) i = -(∑ j : Fin 3, linPart ref i j * d j) := by
  fin_cases i <;>
    (simp [t_part, T_error, transAffine, linPart, Matrix.mul_apply, Fin.sum_univ_four,
      Fin.sum_univ_three, Matrix.vecHead, Matrix.vecTail]; try ring)

theorem dispSq_transAffine (ref : Affine4) (d : Fin 3 → ℚ) (r : ℚ) (xc : Fin 3 → ℚ) :
    dispSq ref (transAffine d) r xc =
      ∑ i : Fin 3, (∑ j : Fin 3, linPart ref i j * d j) * (∑ j : Fin 3, linPart ref i j * d j) := by
  simp [dispSq, traceATA, centerDisp, A_part_transAffine, t_part_transAffine]

/-- A concrete reference affine with 2 mm isotropic voxels. -/
def refDiag2 : Affine4 := !![2,0,0,0; 0,2,0,0; 0,0,2,0; 0,0,0,1]

/-- A concrete unit translation along the first axis. -/
def d100 : Fin 3 → ℚ := ![1, 0, 0]

/-- C4 counterexample: for the reference affine `refDiag2` (2 mm voxels) and a
pure translation by `d = (1,0,0)`, the summarizer returns 2, not `|d| = 1`:
the translation is scaled by the reference's linear part. -/
theorem mean_displacement_translation_ne_norm :
    mean_displacement refDiag2 (transAffine d100) 70 xc0 ≠ euclidNorm d100 := by
  unfold mean_displacement euclidNorm
  rw [show dispSq refDiag2 (transAffine d100) 70 xc0 = 4 from by
    rw [dispSq_transAffine]
    norm_num [linPart, refDiag2, d100, Fin.sum_univ_three, Matrix.vecHead, Matrix.vecTail]]
  rw [show (∑ i : Fin 3, d100 i * d100 i : ℚ) = 1 from by
    norm_num [d100, Fin.sum_univ_three, Matrix.vecHead, Matrix.vecTail]]
  rw [show ((4:ℚ):ℝ) = 2 ^ 2 by norm_num, Real.sqrt_sq (by norm_num)]
  rw [show ((1:ℚ):ℝ) = 1 by norm_num, Real.sqrt_one]
  norm_num

/-- C4 amended: for a pure translation by `d` with zero rotation, the
summarizer returns the Euclidean norm of the image of `d` under the linear
block of the reference affine (hence exactly `|d|` whenever that block
preserves norms, e.g. the identity), and the value is independent of the
radius `r` and of the center `xc`, neither of which appears on the right. -/
theorem mean_displacement_translation_eq_norm_linPart (ref : Affine4) (d : Fin 3 → ℚ)
    (r : ℚ) (xc : Fin 3 → ℚ) :
    mean_displacement ref (transAffine d) r xc =
      euclidNorm (fun i => ∑ j : Fin 3, linPart ref i j * d j) := by
  unfold mean_displacement euclidNorm
  rw [dispSq_transAffine]

/-- A pure-rotation (about the origin, the assumed center) per-frame
transform: linear block `Q`, zero translation column. -/
def rotAffine (Q : Matrix (Fin 3) (Fin 3) ℚ) : Affine4 :=
  !![Q 0 0, Q 0 1, Q 0 2, 0; Q 1 0, Q 1 1, Q 1 2, 0; Q 2 0, Q 2 1, Q 2 2, 0; 0,0,0,1]

/-- The trace term of the displacement formula is a sum of squares, hence
nonnegative. -/
theorem traceATA_nonneg (ref T : Affine4) : 0 ≤ traceATA ref T := by
  unfold traceATA
  exact Finset.sum_nonneg fun i _ => Finset.sum_nonneg fun j _ => mul_self_nonneg _

/-- The quantity under the square root is monotone in the radius on
nonnegative radii. -/
theorem dispSq_mono_radius (ref T : Affine4) (xc : Fin 3 → ℚ) {a b : ℚ}
    (ha : 0 ≤ a) (hab : a ≤ b) : dispSq ref T a xc ≤ dispSq ref T b xc := by
  unfold dispSq
  apply add_le_add_right
  apply mul_le_mul_of_nonneg_right _ (traceATA_nonneg ref T)
  have h2 : a ^ 2 ≤ b ^ 2 := pow_le_pow_left₀ ha hab 2
  linarith

/-- C5: for a pure rotation about the assumed center (zero translation), the
summarizer's output is a monotonically increasing function of the sphere
radius over positive radii, for every reference affine. -/
theorem mean_displacement_rotation_monotone_in_radius (ref : Affine4)
    (Q : Matrix (Fin 3) (Fin 3) ℚ) (_hQ : Qᵀ * Q = 1) :
    MonotoneOn (fun r : ℚ => mean_displacement ref (rotAffine Q) r xc0)
      (Set.Ioi (0:ℚ)) := by
  intro a ha b _hb hab
  unfold mean_displacement
  apply Real.sqrt_le_sqrt
  exact_mod_cast dispSq_mono_radius ref (rotAffine Q) xc0 (le_of_lt ha) hab

/-- A concrete 90-degree rotation about the third axis. -/
def Q90 : Matrix (Fin 3) (Fin 3) ℚ := !![0,-1,0; 1,0,0; 0,0,1]

/-- Witness for C5: `Q90` is orthogonal, and at the concrete reference
`refDiag2` the displacement at radius 1 is at most the displacement at
radius 2. -/
theorem mean_displacement_rotation_monotone_in_radius_witness :
    Q90ᵀ * Q90 = 1 ∧
      mean_displacement refDiag2 (rotAffine Q90) 1 xc0 ≤
        mean_displacement refDiag2 (rotAffine Q90) 2 xc0 := by
  have hQ : Q90ᵀ * Q90 = 1 := by
    ext i j
    fin_cases i <;> fin_cases j <;>
      simp [Q90, Matrix.mul_apply, Fin.sum_univ_three, Matrix.one_apply,
        Matrix.vecHead, Matrix.vecTail]
  exact ⟨hQ, mean_displacement_rotation_monotone_in_radius refDiag2 Q90 hQ
    (Set.mem_Ioi.mpr one_pos) (Set.mem_Ioi.mpr two_pos) one_le_two⟩

/-- Source: `md_diff = np.diff(mean_displacement_all)` (per-subject first
difference of consecutive values). -/
def md_diff (xs : List ℚ) : List ℚ := List.zipWith (fun a b => b - a) xs xs.tail

/-- Square each entry and sum, as in `np.sum(md_diff**2, axis=1)`. -/
def sumSq (xs : List ℚ) : ℚ := (xs.map fun x => x * x).sum

/-- Source: `md_diff_rms = np.sqrt(np.sum(md_diff**2, axis=1))`, per subject. -/
noncomputable def md_diff_rms (xs : List ℚ) : ℝ := Real.sqrt (sumSq (md_diff xs))

/-- Source: `max_disp = 2.5`. -/
def max_disp : ℚ := 5/2

/-- Source: `bad_sub_inds = np.nonzero(md_diff_rms >= max_disp)[0]`: the set
of subject indices whose summary meets or exceeds the threshold. -/
def bad_sub_inds (M : List (List ℚ)) : Set ℕ :=
  {i | i < M.length ∧ (max_disp : ℝ) ≤ md_diff_rms (M.getD i [])}

theorem sumSq_nonneg (xs : List ℚ) : 0 ≤ sumSq xs := by
  apply List.sum_nonneg
  intro y hy
  obtain ⟨x, _, rfl⟩ := List.mem_map.mp hy
  exact mul_self_nonneg x

/-- C6: a subject is flagged exactly when the square root of the sum of
squares of the first differences of its displacement curve is at least the
threshold 2.5; equivalently (squaring both sides) when that sum of squares
is at least 6.25. -/
theorem bad_sub_inds_spec (M : List (List ℚ)) (i : ℕ) :
    (i ∈ bad_sub_inds M ↔
      i < M.length ∧ Real.sqrt (sumSq (md_diff (M.getD i []))) ≥ (5/2 : ℝ)) ∧
    (i ∈ bad_sub_inds M ↔
      i < M.length ∧ 25/4 ≤ sumSq (md_diff (M.getD i []))) := by
  have h0 : (0:ℚ) ≤ sumSq (md_diff (M.getD i [])) := sumSq_nonneg _
  have hcast : ((max_disp : ℚ) : ℝ) = (5/2 : ℝ) := by norm_num [max_disp]
  have key : ((max_disp : ℚ) : ℝ) ≤ md_diff_rms (M.getD i []) ↔
      25/4 ≤ sumSq (md_diff (M.getD i [])) := by
    rw [hcast]
    unfold md_diff_rms
    rw [Real.le_sqrt (by norm_num) (by exact_mod_cast h0)]
    constructor
    · intro h
      have : ((25/4 : ℚ) : ℝ) ≤ (sumSq (md_diff (M.getD i [])) : ℝ) := by
        push_cast
        nlinarith
      exact_mod_cast this
    · intro h
      have : ((25/4 : ℚ) : ℝ) ≤ (sumSq (md_diff (M.getD i [])) : ℝ) := by exact_mod_cast h
      nlinarith
  constructor
  · unfold bad_sub_inds md_diff_rms
    rw [hcast]
    exact Iff.rfl
  · unfold bad_sub_inds
    exact and_congr_right fun _ => key

/-- Source: `num_timepoints = int(dims_all.min(axis=0)[3])`: the minimum of
the per-subject fourth-dimension sizes (`np.min` of a nonempty list; the
empty case, on which numpy raises, is mapped to 0). -/
def num_timepoints : List ℕ → ℕ
  | [] => 0
  | d :: ds => ds.foldl min d

theorem foldl_min_le (l : List ℕ) : ∀ a : ℕ, ∀ x ∈ a :: l, l.foldl min a ≤ x := by
  induction l with
  | nil => intro a x hx; simp at hx; simp [hx]
  | cons b l ih =>
    intro a x hx
    rcases List.mem_cons.mp hx with rfl | hx
    · exact le_trans (ih (min x b) _ (List.mem_cons_self _ _)) (min_le_left x b)
    · rcases List.mem_cons.mp hx with rfl | hx
      · exact le_trans (ih (min a x) _ (List.mem_cons_self _ _)) (min_le_right a x)
      · exact ih (min a b) x (List.mem_cons_of_mem _ hx)

theorem foldl_min_mem (l : List ℕ) : ∀ a : ℕ, l.foldl min a ∈ a :: l := by
  induction l with
  | nil => intro a; simp
  | cons b l ih =>
    intro a
    have h := ih (min a b)
    rcases List.mem_cons.mp h with h' | h'
    · rcases min_cases a b with ⟨hm, _⟩ | ⟨hm, _⟩
      · exact List.mem_cons.mpr (Or.inl (h'.trans hm))
      · simp only [List.foldl_cons]
        rw [h', hm]
        exact List.mem_cons_of_mem _ (List.mem_cons_self _ _)
    · exact List.mem_cons_of_mem _ (List.mem_cons_of_mem _ h')

/-- C7: the common number of frames is the minimum of the per-subject
fourth-dimension sizes (it is one of the sizes and bounds them all below);
for sizes `{170, 164, 168}` it is `164`; and truncating a per-subject RMS
curve with `[0:num_timepoints]` yields exactly that many frames. -/
theorem num_timepoints_min_truncation (dims : List ℕ) (h : dims ≠ []) :
    (num_timepoints dims ∈ dims ∧ ∀ d ∈ dims, num_timepoints dims ≤ d) ∧
    num_timepoints [170, 164, 168] = 164 ∧
    ∀ curve : List ℚ, curve.length ∈ dims →
      (curve.take (num_timepoints dims)).length = num_timepoints dims := by
  obtain ⟨d, ds, rfl⟩ := List.exists_cons_of_ne_nil h
  refine ⟨⟨foldl_min_mem ds d, fun x hx => foldl_min_le ds d x hx⟩, by norm_num [num_timepoints], ?_⟩
  intro curve hc
  rw [List.length_take]
  exact Nat.min_eq_left (foldl_min_le ds d curve.length hc)

/-- Witness for C7 at the concrete frame counts `{170, 164, 168}`. -/
theorem num_timepoints_min_truncation_witness : num_timepoints [170, 164, 168] = 164 :=
  (num_timepoints_min_truncation [170, 164, 168] (by simp)).2.1

/-- Source: `temporal_mean = bold_arr.mean(axis=3)`: the per-voxel mean over
the time dimension of a 4-D volume array. -/
def temporal_mean {X Y Z T : ℕ} (V : Fin X → Fin Y → Fin Z → Fin T → ℚ)
    (x : Fin X) (y : Fin Y) (z : Fin Z) : ℚ :=
  (∑ t : Fin T, V x y z t) / (T : ℚ)

/-- The loop version of the notebook's RMS metric: for each `t`,
`rms[t] = np.sqrt(np.mean((temporal_mean - arr[:,:,:,t])**2))`, where
`np.mean` divides the sum over all voxels by the voxel count. -/
noncomputable def rms {X Y Z T : ℕ} (V : Fin X → Fin Y → Fin Z → Fin T → ℚ)
    (t : Fin T) : ℝ :=
  Real.sqrt (((∑ x : Fin X, ∑ y : Fin Y, ∑ z : Fin Z,
    (temporal_mean V x y z - V x y z t) ^ 2) / ((X : ℚ) * (Y : ℚ) * (Z : ℚ)) : ℚ))

/-- The vectorized version: square the broadcast difference, then chain
`.mean(axis=0)` three times (averaging out `x`, then `y`, then `z`) and take
the square root, as in
`rms = np.sqrt(squared_difference.mean(axis=0).mean(axis=0).mean(axis=0))`. -/
noncomputable def rms_broadcast {X Y Z T : ℕ} (V : Fin X → Fin Y → Fin Z → Fin T → ℚ)
    (t : Fin T) : ℝ :=
  Real.sqrt (((∑ z : Fin Z, (∑ y : Fin Y, (∑ x : Fin X,
    (temporal_mean V x y z - V x y z t) ^ 2) / (X : ℚ)) / (Y : ℚ)) / (Z : ℚ) : ℚ))

/-- C9: the per-timepoint loop computation of the RMS error agrees with the
vectorized broadcast computation, for every 4-D volume array and timepoint. -/
theorem rms_loop_eq_broadcast (X Y Z T : ℕ) (V : Fin X → Fin Y → Fin Z → Fin T → ℚ)
    (t : Fin T) : rms V t = rms_broadcast V t := by
  unfold rms rms_broadcast
  congr 2
  have hsum : (∑ x : Fin X, ∑ y : Fin Y, ∑ z : Fin Z,
      (temporal_mean V x y z - V x y z t) ^ 2) =
      ∑ z : Fin Z, ∑ y : Fin Y, ∑ x : Fin X,
        (temporal_mean V x y z - V x y z t) ^ 2 :=
    calc (∑ x : Fin X, ∑ y : Fin Y, ∑ z : Fin Z,
        (temporal_mean V x y z - V x y z t) ^ 2)
        = ∑ y : Fin Y, ∑ x : Fin X, ∑ z : Fin Z,
            (temporal_mean V x y z - V x y z t) ^ 2 := Finset.sum_comm
      _ = ∑ y : Fin Y, ∑ z : Fin Z, ∑ x : Fin X,
            (temporal_mean V x y z - V x y z t) ^ 2 :=
          Finset.sum_congr rfl fun y _ => Finset.sum_comm
      _ = ∑ z : Fin Z, ∑ y : Fin Y, ∑ x : Fin X,
            (temporal_mean V x y z - V x y z t) ^ 2 := Finset.sum_comm
  rw [hsum]
  simp only [← Finset.sum_div, div_div]

/-- Time-average of one subject's RMS curve, as in `rms_all.mean(axis=1)`
(`np.mean` of a row: sum divided by length; the empty row, on which numpy
would produce a warning and NaN, is mapped to 0 by rational division). -/
def rowMean (xs : List ℚ) : ℚ := xs.sum / xs.length

/-- Source: `mean_rms_all = rms_all.mean(axis=1)`: the per-subject
time-averaged RMS values. -/
def mean_rms_all (M : List (List ℚ)) : List ℚ := M.map rowMean

/-- Maximum of a list, as computed by `np.max` (nonempty in all uses; the
empty case is mapped to 0). -/
def npMax : List ℚ → ℚ
  | [] => 0
  | x :: xs => xs.foldl max x

theorem foldl_max_ge (l : List ℚ) : ∀ a : ℚ, ∀ x ∈ a :: l, x ≤ l.foldl max a := by
  induction l with
  | nil =>
    intro a x hx
    simp at hx
    simp [hx]
  | cons b l ih =>
    intro a x hx
    rcases List.mem_cons.mp hx with rfl | hx
    · exact le_trans (le_max_left x b) (ih (max x b) _ (List.mem_cons_self _ _))
    · rcases List.mem_cons.mp hx with rfl | hx
      · exact le_trans (le_max_right a x) (ih (max a x) _ (List.mem_cons_self _ _))
      · exact ih (max a b) x (List.mem_cons_of_mem _ hx)

theorem foldl_max_mem (l : List ℚ) : ∀ a : ℚ, l.foldl max a ∈ a :: l := by
  induction l with
  | nil => intro a; simp
  | cons b l ih =>
    intro a
    have h := ih (max a b)
    rcases List.mem_cons.mp h with h' | h'
    · rcases max_cases a b with ⟨hm, _⟩ | ⟨hm, _⟩
      · exact List.mem_cons.mpr (Or.inl (h'.trans hm))
      · simp only [List.foldl_cons]
        rw [h', hm]
        exact List.mem_cons_of_mem _ (List.mem_cons_self _ _)
    · exact List.mem_cons_of_mem _ (List.mem_cons_of_mem _ h')

theorem npMax_mem (l : List ℚ) (h : l ≠ []) : npMax l ∈ l := by
  obtain ⟨x, xs, rfl⟩ := List.exists_cons_of_ne_nil h
  exact foldl_max_mem xs x

theorem le_npMax (l : List ℚ) (x : ℚ) (hx : x ∈ l) : x ≤ npMax l := by
  cases l with
  | nil => simp at hx
  | cons a l => exact foldl_max_ge l a x hx

/-- First index at which a list attains the value `mx`, as computed by
`np.nonzero(mean_rms_all == mean_rms_all.max())[0][0]`. -/
def firstIdxEq (mx : ℚ) : List ℚ → ℕ
  | [] => 0
  | x :: xs => if x = mx then 0 else firstIdxEq mx xs + 1

theorem firstIdxEq_spec (mx : ℚ) (l : List ℚ) (h : mx ∈ l) :
    firstIdxEq mx l < l.length ∧ l.getD (firstIdxEq mx l) 0 = mx ∧
      ∀ j < firstIdxEq mx l, l.getD j 0 ≠ mx := by
  induction l with
  | nil => simp at h
  | cons x xs ih =>
    by_cases hx : x = mx
    · refine ⟨by simp [firstIdxEq, hx], by simp [firstIdxEq, hx], ?_⟩
      intro j hj
      simp [firstIdxEq, hx] at hj
    · have hmem : mx ∈ xs := by
        rcases List.mem_cons.mp h with h' | h'
        · exact absurd h'.symm hx
        · exact h'
      obtain ⟨h1, h2, h3⟩ := ih hmem
      refine ⟨by simp only [firstIdxEq, if_neg hx, List.length_cons]; omega, ?_, ?_⟩
      · simpa only [firstIdxEq, if_neg hx, List.getD_cons_succ] using h2
      · intro j hj
        simp only [firstIdxEq, if_neg hx] at hj
        cases j with
        | zero => simpa using hx
        | succ n =>
          simp only [List.getD_cons_succ]
          exact h3 n (by omega)

/-- Source: `worst_subject = np.nonzero(mean_rms_all == mean_rms_all.max())[0][0]`. -/
def worst_subject (M : List (List ℚ)) : ℕ :=
  firstIdxEq (npMax (mean_rms_all M)) (mean_rms_all M)

theorem getD_map_rowMean (M : List (List ℚ)) (i : ℕ) :
    (M.map rowMean).getD i 0 = rowMean (M.getD i []) := by
  have h00 : rowMean ([] : List ℚ) = 0 := by simp [rowMean]
  rw [← h00, List.getD_map]

/-- C10: for every non-empty subjects-by-time RMS matrix, the selected worst
subject is a valid index whose time-averaged RMS attains the maximum of the
time-averaged RMS over all subjects, and no smaller index attains it. -/
theorem worst_subject_least_argmax (M : List (List ℚ)) (h : M ≠ []) :
    worst_subject M < M.length ∧
    rowMean (M.getD (worst_subject M) []) = npMax (mean_rms_all M) ∧
    (∀ j < M.length, rowMean (M.getD j []) ≤ npMax (mean_rms_all M)) ∧
    (∀ j < worst_subject M, rowMean (M.getD j []) ≠ npMax (mean_rms_all M)) := by
  have hlen : (mean_rms_all M).length = M.length := List.length_map _ _
  have hne : mean_rms_all M ≠ [] := by
    obtain ⟨x, xs, rfl⟩ := List.exists_cons_of_ne_nil h
    simp [mean_rms_all]
  obtain ⟨h1, h2, h3⟩ :=
    firstIdxEq_spec (npMax (mean_rms_all M)) (mean_rms_all M) (npMax_mem _ hne)
  refine ⟨by rw [← hlen]; exact h1, ?_, ?_, ?_⟩
  · rw [← getD_map_rowMean]
    exact h2
  · intro j hj
    rw [← getD_map_rowMean]
    apply le_npMax
    have hj2 : j < (mean_rms_all M).length := by rw [hlen]; exact hj
    rw [show (List.map rowMean M) = mean_rms_all M from rfl,
      List.getD_eq_getElem (mean_rms_all M) 0 hj2]
    exact List.getElem_mem _
  · intro j hj
    rw [← getD_map_rowMean]
    exact h3 j hj

/-- Witness for C10 at the concrete RMS matrix `[[1],[3],[2]]`, whose worst
subject is index 1. -/
theorem worst_subject_least_argmax_witness :
    worst_subject [[1],[3],[2]] < ([[1],[3],[2]] : List (List ℚ)).length ∧
      rowMean (([[1],[3],[2]] : List (List ℚ)).getD (worst_subject [[1],[3],[2]]) []) =
        npMax (mean_rms_all [[1],[3],[2]]) :=
  ⟨(worst_subject_least_argmax [[1],[3],[2]] (by simp)).1,
    (worst_subject_least_argmax [[1],[3],[2]] (by simp)).2.1⟩
